import Mathlib

/-!
Verification of the TTML2PGS core pipeline against its specification.

The embedding below is a shallow Lean model of the Python source:
* `core/pgs_encoder.py` — RLE compression (`_rle_compress`), quantization
  (`_quantize_image`), timecode→PTS (`_tc_to_pts`);
* `core/bdn_composer.py` — timeline slicer (`compose`), bbox even-expansion
  and corner guard (`_create_composite_image`), ms→timecode (`_ms_to_tc`).

Machine integers are modelled as `Nat`; Python floats that carry exact
decimal/rational values (millisecond timestamps, fps ratios) are modelled
as `ℚ`; Python `//` on non-negative values is `Nat` division; a timecode
string `"HH:MM:SS:FF"` is modelled both as a quadruple and, where parsing
matters, as a real `String`.
-/

/-! ### RLE compression (`PgsEncoder._rle_compress`, pgs_encoder.py lines 389-421) -/

/-- Number of leading elements of `l` equal to `val`, capped at `cap`.
Models the inner `while i + run < width and line[i + run] == val and run < 16383`
loop: the total run is `1 + runExt val rest 16382`. -/
def runExt (val : Nat) : List Nat → Nat → Nat
  | [], _ => 0
  | _ :: _, 0 => 0
  | x :: xs, c + 1 => if x = val then runExt val xs c + 1 else 0

/-- Bytes emitted for one run of `run` copies of pixel `val`
(the `if val == 0 ... else ...` body of `_rle_compress`). -/
def emitRun (val run : Nat) : List Nat :=
  if val = 0 then
    if run ≤ 63 then [0, run]
    else [0, 0x40 ||| (run >>> 8), run &&& 0xFF]
  else
    if run = 1 then [val]
    else if run ≤ 63 then [0, 0x80 ||| run, val]
    else [0, 0xC0 ||| (run >>> 8), run &&& 0xFF, val]

/-- RLE-compress one scanline (without the end-of-line marker). -/
def rleLine : List Nat → List Nat
  | [] => []
  | val :: rest =>
    let run := runExt val rest 16382 + 1
    emitRun val run ++ rleLine (rest.drop (run - 1))
termination_by l => l.length
decreasing_by
  simp only [List.length_drop, List.length_cons]
  omega

/-- `_rle_compress`: per row, compress `pixels[row*width : row*width+width]`
and append the explicit end-of-line marker `0x00 0x00`. -/
def rleCompress (pixels : List Nat) (width height : Nat) : List Nat :=
  ((List.range height).map
    (fun row => rleLine ((pixels.drop (row * width)).take width) ++ [0, 0])).flatten

/-- The row decomposition of a flat indexed bitmap, as sliced by `_rle_compress`. -/
def pgsRows (pixels : List Nat) (width height : Nat) : List (List Nat) :=
  (List.range height).map (fun row => (pixels.drop (row * width)).take width)

/-- Read one RLE code of the PGS object format: a literal non-zero byte is a
single pixel; a zero escape byte is followed by `0x00` (end of line), a short
transparent run (`< 0x40`), a long transparent run (`0x40..0x7F` plus one
length byte), a short color run (`0x80..0xBF` plus a color byte) or a long
color run (`≥ 0xC0` plus length and color bytes).  Returns `none` on a
truncated stream, `some (none, rest)` at an end-of-line marker, and
`some (some (len, val), rest)` for a run of `len` copies of pixel `val`. -/
def readTok : List Nat → Option (Option (Nat × Nat) × List Nat)
  | [] => none
  | b :: rest =>
    if b = 0 then
      match rest with
      | [] => none
      | f :: rest2 =>
        if f = 0 then some (none, rest2)
        else if f < 0x40 then some (some (f, 0), rest2)
        else if f < 0x80 then
          match rest2 with
          | [] => none
          | n :: rest3 => some (some ((f - 0x40) * 256 + n, 0), rest3)
        else if f < 0xC0 then
          match rest2 with
          | [] => none
          | c :: rest3 => some (some (f - 0x80, c), rest3)
        else
          match rest2 with
          | [] => none
          | [_] => none
          | n :: c :: rest4 => some (some ((f - 0xC0) * 256 + n, c), rest4)
    else some (some (1, b), rest)

theorem readTok_shrinks (bytes : List Nat) (t : Option (Nat × Nat)) (rest : List Nat)
    (h : readTok bytes = some (t, rest)) : rest.length < bytes.length := by
  match bytes with
  | [] => simp [readTok] at h
  | b :: r =>
    by_cases hb : b = 0
    · match r with
      | [] => simp [readTok, hb] at h
      | f :: r2 =>
        by_cases hf0 : f = 0
        · simp [readTok, hb, hf0] at h
          simp [← h.2]
          omega
        · by_cases hf1 : f < 0x40
          · simp [readTok, hb, hf0, hf1] at h
            simp [← h.2]
            omega
          · by_cases hf2 : f < 0x80
            · match r2 with
              | [] => simp [readTok, hb, hf0, hf1, hf2] at h
              | n :: r3 =>
                simp [readTok, hb, hf0, hf1, hf2] at h
                simp [← h.2]
                omega
            · by_cases hf3 : f < 0xC0
              · match r2 with
                | [] => simp [readTok, hb, hf0, hf1, hf2, hf3] at h
                | c :: r3 =>
                  simp [readTok, hb, hf0, hf1, hf2, hf3] at h
                  simp [← h.2]
                  omega
              · match r2 with
                | [] => simp [readTok, hb, hf0, hf1, hf2, hf3] at h
                | [c] => simp [readTok, hb, hf0, hf1, hf2, hf3] at h
                | n :: c :: r4 =>
                  simp [readTok, hb, hf0, hf1, hf2, hf3] at h
                  simp [← h.2]
                  omega
    · simp [readTok, hb] at h
      simp [← h.2]

/-- Decode one RLE scanline: consume codes until the end-of-line marker.
Returns the decoded row and the bytes following the end-of-line marker. -/
def rleDecodeLine (bytes : List Nat) : Option (List Nat × List Nat) :=
  match h : readTok bytes with
  | none => none
  | some (none, rest) => some ([], rest)
  | some (some (len, val), rest) =>
    have := readTok_shrinks bytes _ _ h
    (rleDecodeLine rest).map (fun pr => (List.replicate len val ++ pr.1, pr.2))
termination_by bytes.length

/-- Decode `height` RLE scanlines, requiring the stream to be fully consumed. -/
def rleDecode : Nat → List Nat → Option (List (List Nat))
  | 0, bytes => if bytes.isEmpty then some [] else none
  | h + 1, bytes =>
    match rleDecodeLine bytes with
    | some (row, rem) => (rleDecode h rem).map (row :: ·)
    | none => none

/-! ### RLE round-trip lemmas -/

theorem runExt_le (val : Nat) : ∀ (l : List Nat) (cap : Nat), runExt val l cap ≤ cap
  | [], _ => by simp [runExt]
  | _ :: _, 0 => by simp [runExt]
  | x :: xs, c + 1 => by
    simp only [runExt]
    split
    · have := runExt_le val xs c
      omega
    · omega

theorem runExt_take (val : Nat) :
    ∀ (l : List Nat) (cap : Nat),
      l.take (runExt val l cap) = List.replicate (runExt val l cap) val
  | [], _ => by simp [runExt]
  | _ :: _, 0 => by simp [runExt]
  | x :: xs, c + 1 => by
    simp only [runExt]
    split
    · next hx =>
      simp [List.take_succ_cons, List.replicate_succ, hx, runExt_take val xs c]
    · simp

theorem replicate_append_drop (val : Nat) (l : List Nat) (cap : Nat) :
    List.replicate (runExt val l cap + 1) val ++ l.drop (runExt val l cap) = val :: l := by
  rw [List.replicate_succ, List.cons_append, ← runExt_take val l cap,
    List.take_append_drop]

theorem rleLine_cons (val : Nat) (rest : List Nat) :
    rleLine (val :: rest)
      = emitRun val (runExt val rest 16382 + 1)
        ++ rleLine (rest.drop (runExt val rest 16382)) := by
  rw [rleLine]
  simp

/-! Decoder step lemmas: how the decoder consumes each kind of code. -/

theorem rleDecodeLine_run {bytes rest : List Nat} {len val : Nat}
    (h : readTok bytes = some (some (len, val), rest)) :
    rleDecodeLine bytes
      = (rleDecodeLine rest).map (fun pr => (List.replicate len val ++ pr.1, pr.2)) := by
  rw [rleDecodeLine]
  split
  · next heq => rw [heq] at h; exact absurd h (by simp)
  · next heq => rw [heq] at h; simp at h
  · next heq =>
    rw [heq] at h
    simp only [Option.some.injEq, Prod.mk.injEq] at h
    obtain ⟨⟨h1, h2⟩, h3⟩ := h
    subst h1; subst h2; subst h3; rfl

theorem rleDecodeLine_eol {bytes rest : List Nat}
    (h : readTok bytes = some (none, rest)) :
    rleDecodeLine bytes = some ([], rest) := by
  rw [rleDecodeLine]
  split
  · next heq => rw [heq] at h; exact absurd h (by simp)
  · next heq => rw [heq] at h; simp at h; simp [h]
  · next heq => rw [heq] at h; simp at h

theorem readTok_literal (b : Nat) (hb : b ≠ 0) (bytes : List Nat) :
    readTok (b :: bytes) = some (some (1, b), bytes) := by
  simp [readTok, hb]

theorem readTok_eolmark (bytes : List Nat) :
    readTok (0 :: 0 :: bytes) = some (none, bytes) := by
  simp [readTok]

theorem readTok_shortT (f : Nat) (h0 : f ≠ 0) (h64 : f < 64) (bytes : List Nat) :
    readTok (0 :: f :: bytes) = some (some (f, 0), bytes) := by
  simp [readTok, h0, h64]

theorem readTok_longT (f n : Nat) (h1 : 64 ≤ f) (h2 : f < 128) (bytes : List Nat) :
    readTok (0 :: f :: n :: bytes) = some (some ((f - 64) * 256 + n, 0), bytes) := by
  have h0 : ¬ f = 0 := by omega
  have h64 : ¬ f < 64 := by omega
  simp [readTok, h0, h64, h2]

theorem readTok_shortC (f c : Nat) (h1 : 128 ≤ f) (h2 : f < 192) (bytes : List Nat) :
    readTok (0 :: f :: c :: bytes) = some (some (f - 128, c), bytes) := by
  have h0 : ¬ f = 0 := by omega
  have h64 : ¬ f < 64 := by omega
  have h128 : ¬ f < 128 := by omega
  simp [readTok, h0, h64, h128, h2]

theorem readTok_longC (f n c : Nat) (h1 : 192 ≤ f) (bytes : List Nat) :
    readTok (0 :: f :: n :: c :: bytes)
      = some (some ((f - 192) * 256 + n, c), bytes) := by
  have h0 : ¬ f = 0 := by omega
  have h64 : ¬ f < 64 := by omega
  have h128 : ¬ f < 128 := by omega
  have h192 : ¬ f < 192 := by omega
  simp [readTok, h0, h64, h128, h192]

theorem lor_64 : ∀ x : Nat, x < 64 → 64 ||| x = 64 + x := by decide

theorem lor_128 : ∀ x : Nat, x < 64 → 128 ||| x = 128 + x := by decide

theorem lor_192 : ∀ x : Nat, x < 64 → 192 ||| x = 192 + x := by decide

theorem and_255 (x : Nat) : x &&& 255 = x % 256 := by
  have : (255 : Nat) = 2 ^ 8 - 1 := by norm_num
  rw [this, Nat.and_pow_two_sub_one_eq_mod]

theorem shiftRight_8 (x : Nat) : x >>> 8 = x / 256 := by
  rw [Nat.shiftRight_eq_div_pow]

theorem rleDecodeLine_rleLine_aux :
    ∀ (N : Nat) (line tail : List Nat), line.length ≤ N → (∀ p ∈ line, p ≤ 255) →
      rleDecodeLine (rleLine line ++ 0 :: 0 :: tail) = some (line, tail) := by
  intro N
  induction N with
  | zero =>
    intro line tail hlen _
    have hnil : line = [] := List.eq_nil_of_length_eq_zero (Nat.le_zero.mp hlen)
    subst hnil
    rw [show rleLine [] ++ 0 :: 0 :: tail = 0 :: 0 :: tail by rw [rleLine]; simp]
    exact rleDecodeLine_eol (readTok_eolmark tail)
  | succ N ih =>
    intro line tail hlen hb
    cases line with
    | nil =>
      rw [show rleLine [] ++ 0 :: 0 :: tail = 0 :: 0 :: tail by rw [rleLine]; simp]
      exact rleDecodeLine_eol (readTok_eolmark tail)
    | cons val rest =>
      obtain ⟨k, hkdef⟩ : ∃ k, runExt val rest 16382 = k := ⟨_, rfl⟩
      have hkle : k ≤ 16382 := hkdef ▸ runExt_le val rest 16382
      have hrest : (rest.drop k).length ≤ N := by
        simp only [List.length_cons] at hlen
        simp only [List.length_drop]
        omega
      have hbrest : ∀ p ∈ rest.drop k, p ≤ 255 := fun p hp =>
        hb p (List.mem_cons_of_mem _ (List.mem_of_mem_drop hp))
      have ihrest := ih (rest.drop k) tail hrest hbrest
      have hrepl :
          List.replicate (k + 1) val ++ rest.drop k = val :: rest := by
        rw [← hkdef]; exact replicate_append_drop val rest 16382
      rw [rleLine_cons, hkdef, List.append_assoc]
      by_cases hval : val = 0
      · subst hval
        by_cases hshort : k + 1 ≤ 63
        · rw [show emitRun 0 (k + 1) = [0, k + 1] by simp [emitRun, hshort]]
          rw [show ([0, k + 1] : List Nat) ++
                (rleLine (rest.drop k) ++ 0 :: 0 :: tail)
              = 0 :: (k + 1) :: (rleLine (rest.drop k) ++ 0 :: 0 :: tail) by simp]
          rw [rleDecodeLine_run (readTok_shortT (k + 1) (by omega) (by omega) _),
            ihrest]
          simp [hrepl]
        · have hq : (k + 1) / 256 < 64 := by omega
          rw [show emitRun 0 (k + 1)
                = [0, 64 + (k + 1) / 256, (k + 1) % 256] by
              simp [emitRun, hshort, shiftRight_8, and_255, lor_64 _ hq]]
          rw [show ([0, 64 + (k + 1) / 256, (k + 1) % 256] : List Nat) ++
                (rleLine (rest.drop k) ++ 0 :: 0 :: tail)
              = 0 :: (64 + (k + 1) / 256) :: (k + 1) % 256 ::
                  (rleLine (rest.drop k) ++ 0 :: 0 :: tail) by simp]
          rw [rleDecodeLine_run
            (readTok_longT (64 + (k + 1) / 256) ((k + 1) % 256) (by omega) (by omega) _),
            ihrest]
          have hlen256 : (64 + (k + 1) / 256 - 64) * 256 + (k + 1) % 256 = k + 1 := by
            omega
          rw [hlen256]
          simp [hrepl]
      · have hv255 : val ≤ 255 := hb val (List.mem_cons_self _ _)
        by_cases hone : k = 0
        · subst hone
          rw [show emitRun val 1 = [val] by simp [emitRun, hval]]
          rw [show ([val] : List Nat) ++ (rleLine (rest.drop 0) ++ 0 :: 0 :: tail)
              = val :: (rleLine (rest.drop 0) ++ 0 :: 0 :: tail) by simp]
          rw [rleDecodeLine_run (readTok_literal val hval _), ihrest]
          simp at hrepl ⊢
        · by_cases hshort : k + 1 ≤ 63
          · have hf : 128 ||| (k + 1) = 128 + (k + 1) := lor_128 _ (by omega)
            rw [show emitRun val (k + 1) = [0, 128 + (k + 1), val] by
              simp only [emitRun, if_neg hval, if_neg (by omega : ¬ k + 1 = 1),
                if_pos hshort, hf]]
            rw [show ([0, 128 + (k + 1), val] : List Nat) ++
                  (rleLine (rest.drop k) ++ 0 :: 0 :: tail)
                = 0 :: (128 + (k + 1)) :: val ::
                    (rleLine (rest.drop k) ++ 0 :: 0 :: tail) by simp]
            rw [rleDecodeLine_run
              (readTok_shortC (128 + (k + 1)) val (by omega) (by omega) _), ihrest]
            have : 128 + (k + 1) - 128 = k + 1 := by omega
            rw [this]
            simp [hrepl]
          · have hq : (k + 1) / 256 < 64 := by omega
            have hf : 192 ||| ((k + 1) >>> 8) = 192 + (k + 1) / 256 := by
              rw [shiftRight_8]; exact lor_192 _ hq
            rw [show emitRun val (k + 1)
                  = [0, 192 + (k + 1) / 256, (k + 1) % 256, val] by
                simp only [emitRun, if_neg hval, if_neg (by omega : ¬ k + 1 = 1),
                  if_neg hshort, hf, and_255]]
            rw [show ([0, 192 + (k + 1) / 256, (k + 1) % 256, val] : List Nat) ++
                  (rleLine (rest.drop k) ++ 0 :: 0 :: tail)
                = 0 :: (192 + (k + 1) / 256) :: (k + 1) % 256 :: val ::
                    (rleLine (rest.drop k) ++ 0 :: 0 :: tail) by simp]
            rw [rleDecodeLine_run
              (readTok_longC (192 + (k + 1) / 256) ((k + 1) % 256) val (by omega) _),
              ihrest]
            have hlen256 : (192 + (k + 1) / 256 - 192) * 256 + (k + 1) % 256 = k + 1 := by
              omega
            rw [hlen256]
            simp [hrepl]

theorem rleDecodeLine_rleLine (line tail : List Nat) (hb : ∀ p ∈ line, p ≤ 255) :
    rleDecodeLine (rleLine line ++ 0 :: 0 :: tail) = some (line, tail) :=
  rleDecodeLine_rleLine_aux line.length line tail le_rfl hb

theorem pgsRows_succ (pixels : List Nat) (w h : Nat) :
    pgsRows pixels w (h + 1) = pixels.take w :: pgsRows (pixels.drop w) w h := by
  unfold pgsRows
  rw [List.range_succ_eq_map, List.map_cons, List.map_map]
  simp only [Nat.zero_mul, List.drop_zero]
  congr 1
  apply List.map_congr_left
  intro r _
  simp only [Function.comp_apply, List.drop_drop]
  congr 2
  simp [Nat.succ_eq_add_one]
  ring_nf

theorem rleCompress_succ (pixels : List Nat) (w h : Nat) :
    rleCompress pixels w (h + 1)
      = rleLine (pixels.take w) ++ 0 :: 0 :: rleCompress (pixels.drop w) w h := by
  unfold rleCompress
  rw [List.range_succ_eq_map, List.map_cons, List.map_map, List.flatten_cons]
  simp only [Nat.zero_mul, List.drop_zero]
  rw [List.append_assoc]
  congr 1
  simp only [List.cons_append, List.nil_append]
  congr 2
  congr 1
  apply List.map_congr_left
  intro r _
  simp only [Function.comp_apply, List.drop_drop]
  congr 3
  simp [Nat.succ_eq_add_one]
  ring_nf

theorem rleDecode_rleCompress :
    ∀ (h : Nat) (pixels : List Nat) (w : Nat), (∀ p ∈ pixels, p ≤ 255) →
      rleDecode h (rleCompress pixels w h) = some (pgsRows pixels w h) := by
  intro h
  induction h with
  | zero =>
    intro pixels w _
    simp [rleDecode, rleCompress, pgsRows]
  | succ h ih =>
    intro pixels w hb
    rw [rleCompress_succ, pgsRows_succ]
    have hline := rleDecodeLine_rleLine (pixels.take w) (rleCompress (pixels.drop w) w h)
      (fun p hp => hb p (List.mem_of_mem_take hp))
    simp only [rleDecode, hline]
    rw [ih (pixels.drop w) w (fun p hp => hb p (List.mem_of_mem_drop hp))]
    rfl

theorem pgsRows_flatten :
    ∀ (h : Nat) (pixels : List Nat) (w : Nat), pixels.length = w * h →
      (pgsRows pixels w h).flatten = pixels := by
  intro h
  induction h with
  | zero =>
    intro pixels w hlen
    simp only [Nat.mul_zero] at hlen
    simp [pgsRows, List.eq_nil_of_length_eq_zero hlen]
  | succ h ih =>
    intro pixels w hlen
    rw [pgsRows_succ, List.flatten_cons,
      ih (pixels.drop w) w (by simp only [List.length_drop, hlen, Nat.mul_succ]; omega),
      List.take_append_drop]

/-- C1: RLE round-trip.  For every indexed bitmap (list of palette indices of
size `width * height`, each index `≤ 255`, `width, height ≥ 1`), decoding the
output of `_rle_compress` reproduces the exact original pixel indices row by
row (each scanline is recovered only by consuming its explicit end-of-line
marker, and the recovered rows flatten back to the original pixel list);
single non-transparent pixels are emitted as literal bytes and all other runs
as zero-escape codes with short (≤63) and long (>63) forms capped at 16383,
as encoded by `emitRun`. -/
theorem rle_roundtrip (pixels : List Nat) (width height : Nat)
    (hw : 1 ≤ width) (hh : 1 ≤ height)
    (hlen : pixels.length = width * height)
    (hbyte : ∀ p ∈ pixels, p ≤ 255) :
    rleDecode height (rleCompress pixels width height) = some (pgsRows pixels width height)
      ∧ (pgsRows pixels width height).flatten = pixels :=
  ⟨rleDecode_rleCompress height pixels width hbyte,
    pgsRows_flatten height pixels width hlen⟩

/-- Witness for C1 at a concrete 2×2 bitmap. -/
theorem rle_roundtrip_witness :
    rleDecode 2 (rleCompress [1, 0, 0, 7] 2 2) = some (pgsRows [1, 0, 0, 7] 2 2)
      ∧ (pgsRows [1, 0, 0, 7] 2 2).flatten = [1, 0, 0, 7] :=
  rle_roundtrip [1, 0, 0, 7] 2 2 (by decide) (by decide) (by decide) (by decide)

/-! ### Timeline slicer (`BdnComposer.compose`, bdn_composer.py lines 59-110) -/

/-- One input subtitle cue: stable id and real-time interval in milliseconds
(before the global timing offset is applied). -/
structure Cue where
  id : Nat
  start_ms : ℚ
  end_ms : ℚ
deriving DecidableEq, Repr

/-- One produced time slice: its interval and its active cues in layer order. -/
structure TimeSlice where
  start_ms : ℚ
  end_ms : ℚ
  active : List Cue
deriving DecidableEq, Repr

/-- The sorted list of distinct cue boundary points (offset applied): the
`points` set of `compose`, sorted ascending. -/
def slicePoints (off : ℚ) (cues : List Cue) : List ℚ :=
  List.insertionSort (· ≤ ·)
    ((cues.map (fun c => [c.start_ms + off, c.end_ms + off])).flatten.dedup)

/-- The cues active on interval `(t0, t1)`: those whose offset-applied interval
contains the midpoint `(t0 + t1) / 2` (half-open test of `compose`). -/
def midActive (off : ℚ) (cues : List Cue) (t0 t1 : ℚ) : List Cue :=
  cues.filter (fun c =>
    decide (c.start_ms + off ≤ (t0 + t1) / 2 ∧ (t0 + t1) / 2 < c.end_ms + off))

/-- Build the slice for one adjacent boundary pair: skip non-positive
durations and empty active sets; active cues are sorted by ascending id. -/
def sliceOf (off : ℚ) (cues : List Cue) (p : ℚ × ℚ) : Option TimeSlice :=
  if p.2 - p.1 ≤ 0 then none
  else if (List.insertionSort (fun a b => a.id ≤ b.id)
      (midActive off cues p.1 p.2)).isEmpty then none
  else
    some ⟨p.1, p.2, List.insertionSort (fun a b => a.id ≤ b.id) (midActive off cues p.1 p.2)⟩

/-- The timeline slicer: one candidate slice per adjacent boundary pair. -/
def mkSlices (off : ℚ) (cues : List Cue) : List TimeSlice :=
  ((slicePoints off cues).zip (slicePoints off cues).tail).filterMap (sliceOf off cues)

instance cueIdTotal : IsTotal Cue (fun a b => a.id ≤ b.id) :=
  ⟨fun a b => Nat.le_total a.id b.id⟩

instance cueIdTrans : IsTrans Cue (fun a b => a.id ≤ b.id) :=
  ⟨fun _ _ _ => Nat.le_trans⟩

theorem mem_slicePoints {off : ℚ} {cues : List Cue} {x : ℚ} :
    x ∈ slicePoints off cues
      ↔ ∃ c ∈ cues, x = c.start_ms + off ∨ x = c.end_ms + off := by
  unfold slicePoints
  rw [(List.perm_insertionSort _ _).mem_iff, List.mem_dedup, List.mem_flatten]
  constructor
  · rintro ⟨l, hl, hx⟩
    rw [List.mem_map] at hl
    obtain ⟨c, hc, rfl⟩ := hl
    simp only [List.mem_cons, List.mem_singleton] at hx
    exact ⟨c, hc, by tauto⟩
  · rintro ⟨c, hc, hx⟩
    exact ⟨[c.start_ms + off, c.end_ms + off], List.mem_map_of_mem _ hc, by
      simp only [List.mem_cons, List.mem_singleton]; tauto⟩

theorem slicePoints_sorted (off : ℚ) (cues : List Cue) :
    (slicePoints off cues).Sorted (· < ·) := by
  have h1 : (slicePoints off cues).Sorted (· ≤ ·) :=
    List.sorted_insertionSort _ _
  have h2 : (slicePoints off cues).Nodup :=
    (List.perm_insertionSort _ _).nodup_iff.mpr (List.nodup_dedup _)
  exact h1.lt_of_le h2

theorem zip_tail_adjacent {l : List ℚ} (hl : l.Sorted (· < ·)) {a b : ℚ}
    (hab : (a, b) ∈ l.zip l.tail) :
    a < b ∧ ∀ r ∈ l, r ≤ a ∨ b ≤ r := by
  induction l with
  | nil => simp at hab
  | cons x xs ih =>
    cases xs with
    | nil => simp at hab
    | cons y ys =>
      simp only [List.tail_cons, List.zip_cons_cons, List.mem_cons] at hab
      rcases hab with heq | htl
      · rw [Prod.mk.injEq] at heq
        obtain ⟨rfl, rfl⟩ := heq
        refine ⟨List.rel_of_sorted_cons hl _ (List.mem_cons_self _ _), ?_⟩
        intro r hr
        rcases List.mem_cons.mp hr with rfl | hr'
        · exact Or.inl le_rfl
        · rcases List.mem_cons.mp hr' with rfl | hr''
          · exact Or.inr le_rfl
          · exact Or.inr (le_of_lt (List.rel_of_sorted_cons (List.sorted_cons.mp hl).2 _ hr''))
      · have htail : (y :: ys).Sorted (· < ·) := (List.sorted_cons.mp hl).2
        obtain ⟨hab', hall⟩ := ih htail htl
        refine ⟨hab', ?_⟩
        intro r hr
        rcases List.mem_cons.mp hr with rfl | hr'
        · left
          have ha : a ∈ y :: ys := (List.of_mem_zip htl).1
          exact le_of_lt (List.rel_of_sorted_cons hl _ ha)
        · exact hall r hr'

theorem zip_tail_cover {l : List ℚ} (hl : l.Sorted (· < ·)) {x : ℚ}
    (hex : ∃ a ∈ l, a ≤ x) (hxb : ∃ b ∈ l, x < b) :
    ∃ p ∈ l.zip l.tail, p.1 ≤ x ∧ x < p.2 := by
  induction l with
  | nil => simp at hex
  | cons c rest ih =>
    obtain ⟨b, hb, hbx⟩ := hxb
    cases rest with
    | nil =>
      obtain ⟨a, ha, hax⟩ := hex
      simp only [List.mem_singleton] at ha hb
      subst ha; subst hb
      exact absurd (lt_of_le_of_lt hax hbx) (lt_irrefl _)
    | cons d ys =>
      by_cases hxd : x < d
      · obtain ⟨a, ha, hax⟩ := hex
        have hac : a = c := by
          rcases List.mem_cons.mp ha with rfl | ha'
          · rfl
          · have hda : d ≤ a := by
              rcases List.mem_cons.mp ha' with rfl | ha''
              · exact le_rfl
              · exact le_of_lt
                  (List.rel_of_sorted_cons (List.sorted_cons.mp hl).2 _ ha'')
            exact absurd (lt_of_le_of_lt hda (lt_of_le_of_lt hax hxd)) (lt_irrefl _)
        subst hac
        exact ⟨(a, d), by simp, hax, hxd⟩
      · push_neg at hxd
        have hbd : b ∈ d :: ys := by
          rcases List.mem_cons.mp hb with rfl | hb'
          · have hcd : b < d := List.rel_of_sorted_cons hl _ (List.mem_cons_self _ _)
            exact absurd (lt_of_lt_of_le hcd (le_trans hxd (le_of_lt hbx)))
              (lt_irrefl _)
          · exact hb'
        obtain ⟨p, hp, hpx⟩ :=
          ih (List.sorted_cons.mp hl).2 ⟨d, List.mem_cons_self _ _, hxd⟩ ⟨b, hbd, hbx⟩
        refine ⟨p, ?_, hpx⟩
        simp only [List.tail_cons, List.zip_cons_cons, List.mem_cons]
        right
        simpa using hp

theorem zip_tail_pairwise {l : List ℚ} (hl : l.Sorted (· < ·)) :
    (l.zip l.tail).Pairwise (fun p q => p.2 ≤ q.1) := by
  induction l with
  | nil => simp
  | cons c rest ih =>
    cases rest with
    | nil => simp
    | cons d ys =>
      simp only [List.tail_cons, List.zip_cons_cons]
      rw [List.pairwise_cons]
      refine ⟨?_, ?_⟩
      · rintro ⟨q1, q2⟩ hq
        have hq1 : q1 ∈ d :: ys := (List.of_mem_zip hq).1
        rcases List.mem_cons.mp hq1 with rfl | hq1'
        · exact le_rfl
        · exact le_of_lt
            (List.rel_of_sorted_cons (List.sorted_cons.mp hl).2 _ hq1')
      · have := ih (List.sorted_cons.mp hl).2
        simpa using this

theorem mem_midActive {off : ℚ} {cues : List Cue} {t0 t1 : ℚ} {c : Cue} :
    c ∈ midActive off cues t0 t1
      ↔ c ∈ cues ∧ c.start_ms + off ≤ (t0 + t1) / 2
          ∧ (t0 + t1) / 2 < c.end_ms + off := by
  simp [midActive, List.mem_filter, and_assoc]

theorem sliceOf_eq_some {off : ℚ} {cues : List Cue} {p : ℚ × ℚ} {sl : TimeSlice}
    (h : sliceOf off cues p = some sl) :
    sl.start_ms = p.1 ∧ sl.end_ms = p.2
      ∧ sl.active
          = List.insertionSort (fun a b => a.id ≤ b.id) (midActive off cues p.1 p.2)
      ∧ ¬ p.2 - p.1 ≤ 0 ∧ sl.active ≠ [] := by
  unfold sliceOf at h
  split at h
  · exact absurd h (by simp)
  · next hdur =>
    split at h
    · exact absurd h (by simp)
    · next hemp =>
      rw [Option.some_inj] at h
      subst h
      refine ⟨rfl, rfl, rfl, hdur, ?_⟩
      intro hnil
      simp only at hnil
      apply hemp
      rw [hnil]
      rfl

theorem sliceOf_some_of {off : ℚ} {cues : List Cue} {p : ℚ × ℚ}
    (hdur : ¬ p.2 - p.1 ≤ 0) (hne : midActive off cues p.1 p.2 ≠ []) :
    sliceOf off cues p
      = some ⟨p.1, p.2,
          List.insertionSort (fun a b => a.id ≤ b.id) (midActive off cues p.1 p.2)⟩ := by
  unfold sliceOf
  rw [if_neg hdur, if_neg]
  rw [List.isEmpty_iff]
  intro hnil
  exact hne (List.eq_nil_of_length_eq_zero
    (by rw [← (List.perm_insertionSort (fun a b => a.id ≤ b.id) _).length_eq, hnil]; rfl))

/-- C2: the produced slices partition the union of the offset-applied cue
intervals: a point lies in some slice interval iff it lies in some cue
interval, and no two produced slices overlap. -/
theorem slicer_partition (off : ℚ) (cues : List Cue)
    (hc : ∀ c ∈ cues, c.start_ms < c.end_ms) :
    (∀ x : ℚ,
        (∃ sl ∈ mkSlices off cues, sl.start_ms ≤ x ∧ x < sl.end_ms) ↔
          (∃ c ∈ cues, c.start_ms + off ≤ x ∧ x < c.end_ms + off))
    ∧ (mkSlices off cues).Pairwise
        (fun s1 s2 => s1.end_ms ≤ s2.start_ms ∨ s2.end_ms ≤ s1.start_ms) := by
  constructor
  · intro x
    constructor
    · rintro ⟨sl, hsl, hx1, hx2⟩
      unfold mkSlices at hsl
      rw [List.mem_filterMap] at hsl
      obtain ⟨p, hp, hps⟩ := hsl
      obtain ⟨hs1, hs2, hact, hdur, hne⟩ := sliceOf_eq_some hps
      obtain ⟨c, hcmem⟩ := List.exists_mem_of_ne_nil _ hne
      rw [hact, (List.perm_insertionSort _ _).mem_iff, mem_midActive] at hcmem
      obtain ⟨hccues, hcs, hce⟩ := hcmem
      obtain ⟨p1, p2⟩ := p
      have hadj := zip_tail_adjacent (slicePoints_sorted off cues) hp
      have hp12 : p1 < p2 := hadj.1
      simp only at hs1 hs2 hcs hce
      have hmid1 : p1 < (p1 + p2) / 2 := by linarith
      have hmid2 : (p1 + p2) / 2 < p2 := by linarith
      refine ⟨c, hccues, ?_, ?_⟩
      · have hmem : c.start_ms + off ∈ slicePoints off cues :=
          mem_slicePoints.mpr ⟨c, hccues, Or.inl rfl⟩
        rcases hadj.2 _ hmem with h | h
        · calc c.start_ms + off ≤ p1 := h
            _ = sl.start_ms := hs1.symm
            _ ≤ x := hx1
        · linarith
      · have hmem : c.end_ms + off ∈ slicePoints off cues :=
          mem_slicePoints.mpr ⟨c, hccues, Or.inr rfl⟩
        rcases hadj.2 _ hmem with h | h
        · linarith
        · have hxp : x < p2 := hs2 ▸ hx2
          linarith
    · rintro ⟨c, hccues, hcx1, hcx2⟩
      have hs : c.start_ms + off ∈ slicePoints off cues :=
        mem_slicePoints.mpr ⟨c, hccues, Or.inl rfl⟩
      have he : c.end_ms + off ∈ slicePoints off cues :=
        mem_slicePoints.mpr ⟨c, hccues, Or.inr rfl⟩
      obtain ⟨p, hp, hpx1, hpx2⟩ :=
        zip_tail_cover (slicePoints_sorted off cues) ⟨_, hs, hcx1⟩ ⟨_, he, hcx2⟩
      obtain ⟨p1, p2⟩ := p
      have hadj := zip_tail_adjacent (slicePoints_sorted off cues) hp
      have hp12 : p1 < p2 := hadj.1
      simp only at hpx1 hpx2
      have hcs : c.start_ms + off ≤ p1 := by
        rcases hadj.2 _ hs with h | h
        · exact h
        · linarith
      have hce : p2 ≤ c.end_ms + off := by
        rcases hadj.2 _ he with h | h
        · linarith
        · exact h
      have hcmid : c ∈ midActive off cues p1 p2 := by
        rw [mem_midActive]
        refine ⟨hccues, by linarith, by linarith⟩
      refine ⟨⟨p1, p2,
        List.insertionSort (fun a b => a.id ≤ b.id) (midActive off cues p1 p2)⟩,
        ?_, hpx1, hpx2⟩
      unfold mkSlices
      rw [List.mem_filterMap]
      exact ⟨(p1, p2), hp,
        sliceOf_some_of (by push_neg; linarith) (List.ne_nil_of_mem hcmid)⟩
  · apply List.Pairwise.filterMap (sliceOf off cues) ?_
      (zip_tail_pairwise (slicePoints_sorted off cues))
    intro p q hpq sl hsl sl' hsl'
    rw [Option.mem_def] at hsl hsl'
    obtain ⟨_, h2, _, _, _⟩ := sliceOf_eq_some hsl
    obtain ⟨h1', _, _, _, _⟩ := sliceOf_eq_some hsl'
    left
    rw [h2, h1']
    exact hpq

unseal Rat.add Rat.mul Rat.inv Rat.sub in
/-- Witness for C2 at the two-cue overlap scenario. -/
theorem slicer_partition_witness :
    (∀ c ∈ [Cue.mk 0 0 1000, Cue.mk 1 500 1500], c.start_ms < c.end_ms)
      ∧ ((∀ x : ℚ,
            (∃ sl ∈ mkSlices 0 [Cue.mk 0 0 1000, Cue.mk 1 500 1500],
                sl.start_ms ≤ x ∧ x < sl.end_ms) ↔
              (∃ c ∈ [Cue.mk 0 0 1000, Cue.mk 1 500 1500],
                c.start_ms + 0 ≤ x ∧ x < c.end_ms + 0))
          ∧ (mkSlices 0 [Cue.mk 0 0 1000, Cue.mk 1 500 1500]).Pairwise
              (fun s1 s2 => s1.end_ms ≤ s2.start_ms ∨ s2.end_ms ≤ s1.start_ms)) :=
  ⟨by decide, slicer_partition 0 [Cue.mk 0 0 1000, Cue.mk 1 500 1500] (by decide)⟩

unseal Rat.add Rat.mul Rat.inv Rat.sub in
/-- C3: every produced slice's active-cue list contains exactly the cues whose
offset-applied interval contains the slice midpoint (half-open test), is
sorted by ascending cue id, and the concrete scenario A=[0,1000), B=[500,1500)
produces the three expected slices. -/
theorem slice_active_midpoint (off : ℚ) (cues : List Cue) (sl : TimeSlice)
    (hsl : sl ∈ mkSlices off cues) :
    (∀ c : Cue, c ∈ sl.active ↔
        c ∈ cues ∧ c.start_ms + off ≤ (sl.start_ms + sl.end_ms) / 2
          ∧ (sl.start_ms + sl.end_ms) / 2 < c.end_ms + off)
    ∧ sl.active.Sorted (fun a b => a.id ≤ b.id)
    ∧ mkSlices 0 [Cue.mk 0 0 1000, Cue.mk 1 500 1500]
        = [⟨0, 500, [Cue.mk 0 0 1000]⟩,
           ⟨500, 1000, [Cue.mk 0 0 1000, Cue.mk 1 500 1500]⟩,
           ⟨1000, 1500, [Cue.mk 1 500 1500]⟩] := by
  unfold mkSlices at hsl
  rw [List.mem_filterMap] at hsl
  obtain ⟨p, hp, hps⟩ := hsl
  obtain ⟨hs1, hs2, hact, _, _⟩ := sliceOf_eq_some hps
  refine ⟨?_, ?_, by decide⟩
  · intro c
    rw [hact, (List.perm_insertionSort _ _).mem_iff, mem_midActive, hs1, hs2]
  · rw [hact]
    exact List.sorted_insertionSort _ _

unseal Rat.add Rat.mul Rat.inv Rat.sub in
/-- Witness for C3 at the first slice of the scenario. -/
theorem slice_active_midpoint_witness :
    (⟨0, 500, [Cue.mk 0 0 1000]⟩ : TimeSlice)
        ∈ mkSlices 0 [Cue.mk 0 0 1000, Cue.mk 1 500 1500]
      ∧ ((∀ c : Cue, c ∈ (⟨0, 500, [Cue.mk 0 0 1000]⟩ : TimeSlice).active ↔
            c ∈ [Cue.mk 0 0 1000, Cue.mk 1 500 1500]
              ∧ c.start_ms + 0 ≤ ((0 : ℚ) + 500) / 2
              ∧ ((0 : ℚ) + 500) / 2 < c.end_ms + 0)
          ∧ (⟨0, 500, [Cue.mk 0 0 1000]⟩ : TimeSlice).active.Sorted
              (fun a b => a.id ≤ b.id)
          ∧ mkSlices 0 [Cue.mk 0 0 1000, Cue.mk 1 500 1500]
              = [⟨0, 500, [Cue.mk 0 0 1000]⟩,
                 ⟨500, 1000, [Cue.mk 0 0 1000, Cue.mk 1 500 1500]⟩,
                 ⟨1000, 1500, [Cue.mk 1 500 1500]⟩]) :=
  ⟨by decide,
    slice_active_midpoint 0 [Cue.mk 0 0 1000, Cue.mk 1 500 1500]
      ⟨0, 500, [Cue.mk 0 0 1000]⟩ (by decide)⟩

/-! ### Bounding-box even-expansion and clamp
(`BdnComposer._create_composite_image`, bdn_composer.py lines 171-198) -/

/-- The bbox adjustment of `_create_composite_image`: force left/top down to
even, right/bottom up to even, clamp into canvas bounds, recompute width and
height.  Input is a PIL `getbbox` box (left, upper, right, lower), output is
the returned `(left, upper, w, h)`. -/
def evenExpandClamp (canvasW canvasH left upper right lower : Nat) :
    Nat × Nat × Nat × Nat :=
  (max 0 (if left % 2 ≠ 0 then left - 1 else left),
   max 0 (if upper % 2 ≠ 0 then upper - 1 else upper),
   min canvasW (if right % 2 ≠ 0 then right + 1 else right)
     - max 0 (if left % 2 ≠ 0 then left - 1 else left),
   min canvasH (if lower % 2 ≠ 0 then lower + 1 else lower)
     - max 0 (if upper % 2 ≠ 0 then upper - 1 else upper))

/-- C4 counterexample: on a canvas of odd height — such as the non-standard
resolution 1920×803 that the composer explicitly supports — a valid non-empty
bbox touching the bottom edge yields an odd height after even-expansion and
clamping: the claim fails on canvases with an odd dimension. -/
theorem evenExpandClamp_odd_canvas_counterexample :
    (100 < 110 ∧ 110 ≤ 1920 ∧ 0 < 803 ∧ 803 ≤ 803)
      ∧ evenExpandClamp 1920 803 100 0 110 803 = (100, 0, 10, 803)
      ∧ (evenExpandClamp 1920 803 100 0 110 803).2.2.2 % 2 = 1 := by decide

/-- C4 (amended): for every non-empty `getbbox` box on a canvas whose width
and height are both even (as in every standard video resolution), the
even-expanded and clamped box has even width and even height; the box lies
within canvas bounds for every canvas size. -/
theorem evenExpandClamp_even (canvasW canvasH left upper right lower : Nat)
    (hlr : left < right) (hrw : right ≤ canvasW)
    (hub : upper < lower) (hbh : lower ≤ canvasH)
    (hcw : canvasW % 2 = 0) (hch : canvasH % 2 = 0) :
    (evenExpandClamp canvasW canvasH left upper right lower).2.2.1 % 2 = 0
      ∧ (evenExpandClamp canvasW canvasH left upper right lower).2.2.2 % 2 = 0
      ∧ (evenExpandClamp canvasW canvasH left upper right lower).1
          + (evenExpandClamp canvasW canvasH left upper right lower).2.2.1 ≤ canvasW
      ∧ (evenExpandClamp canvasW canvasH left upper right lower).2.1
          + (evenExpandClamp canvasW canvasH left upper right lower).2.2.2 ≤ canvasH := by
  simp only [evenExpandClamp]
  split_ifs <;> refine ⟨?_, ?_, ?_, ?_⟩ <;> omega

/-- C4 in-bounds holds on every canvas (no evenness hypotheses): for a valid
`getbbox` box the clamped box always lies within canvas bounds. -/
theorem evenExpandClamp_in_bounds (canvasW canvasH left upper right lower : Nat)
    (hlr : left < right) (hrw : right ≤ canvasW)
    (hub : upper < lower) (hbh : lower ≤ canvasH) :
    (evenExpandClamp canvasW canvasH left upper right lower).1
        + (evenExpandClamp canvasW canvasH left upper right lower).2.2.1 ≤ canvasW
      ∧ (evenExpandClamp canvasW canvasH left upper right lower).2.1
          + (evenExpandClamp canvasW canvasH left upper right lower).2.2.2 ≤ canvasH := by
  simp only [evenExpandClamp]
  split_ifs <;> refine ⟨?_, ?_⟩ <;> omega

/-- Witness for C4 (amended) at the spec's Scenario B: an 8×8 opaque block at
(101,101)–(109,109) on a 1920×1080 canvas crops to (100,100) with size 10×10. -/
theorem evenExpandClamp_even_witness :
    (101 < 109 ∧ 109 ≤ 1920 ∧ 101 < 109 ∧ 109 ≤ 1080 ∧ 1920 % 2 = 0 ∧ 1080 % 2 = 0)
      ∧ ((evenExpandClamp 1920 1080 101 101 109 109).2.2.1 % 2 = 0
          ∧ (evenExpandClamp 1920 1080 101 101 109 109).2.2.2 % 2 = 0
          ∧ (evenExpandClamp 1920 1080 101 101 109 109).1
              + (evenExpandClamp 1920 1080 101 101 109 109).2.2.1 ≤ 1920
          ∧ (evenExpandClamp 1920 1080 101 101 109 109).2.1
              + (evenExpandClamp 1920 1080 101 101 109 109).2.2.2 ≤ 1080)
      ∧ evenExpandClamp 1920 1080 101 101 109 109 = (100, 100, 10, 10) :=
  ⟨by decide,
    evenExpandClamp_even 1920 1080 101 101 109 109 (by decide) (by decide)
      (by decide) (by decide) (by decide) (by decide),
    by decide⟩

/-! ### Timecode conversion (`BdnComposer._ms_to_tc`, bdn_composer.py lines
228-260, and `PgsEncoder._tc_to_pts`, pgs_encoder.py lines 359-386)

Python's `round` on a float is modelled by Mathlib's `round` on `ℚ` (both
round to the nearest integer; they differ only in tie-breaking, which none of
the verified properties depend on). -/

/-- `_ms_to_tc` step 1: `total_frames = int(round(ms / 1000 * (fps_num / fps_den)))`. -/
def msToTcFrames (ms : ℚ) (num den : Nat) : Nat :=
  (round (ms / 1000 * ((num : ℚ) / (den : ℚ)))).toNat

/-- The nominal integer timecode base: `int(round(fps_num / fps_den))`
(shared by `_ms_to_tc` step 2 and `_tc_to_pts` step 2). -/
def fpsBase (num den : Nat) : Nat := (round ((num : ℚ) / (den : ℚ))).toNat

/-- `_ms_to_tc` steps 2-3: decompose `total_frames` into `(HH, MM, SS, FF)`
with `frames_per_hr = fps_base * 3600`, `frames_per_min = fps_base * 60`,
`frames_per_sec = fps_base` (Python `//` and `%` on non-negative ints are
`Nat` division and mod). -/
def msToTc (ms : ℚ) (num den : Nat) : Nat × Nat × Nat × Nat :=
  (msToTcFrames ms num den / (fpsBase num den * 3600),
   msToTcFrames ms num den % (fpsBase num den * 3600) / (fpsBase num den * 60),
   msToTcFrames ms num den % (fpsBase num den * 3600) % (fpsBase num den * 60)
     / fpsBase num den,
   msToTcFrames ms num den % (fpsBase num den * 3600) % (fpsBase num den * 60)
     % fpsBase num den)

/-- Python `f"{n:02d}"` for a non-negative int. -/
def pad2 (n : Nat) : String := if n < 10 then "0" ++ toString n else toString n

/-- The `HH:MM:SS:FF` string returned by `_ms_to_tc`. -/
def tcFormat (tc : Nat × Nat × Nat × Nat) : String :=
  pad2 tc.1 ++ ":" ++ pad2 tc.2.1 ++ ":" ++ pad2 tc.2.2.1 ++ ":" ++ pad2 tc.2.2.2

/-- Python `str.split(sep)` for a one-character separator, over the
character list. -/
def splitOnCharList (sep : Char) : List Char → List (List Char)
  | [] => [[]]
  | c :: cs =>
    if c = sep then [] :: splitOnCharList sep cs
    else
      match splitOnCharList sep cs with
      | [] => [[c]]
      | g :: gs => (c :: g) :: gs

/-- Python `int(field)` on a plain decimal field: fails (raises `ValueError`,
modelled as `none`) on an empty field or any non-digit character. -/
def parseNatStrict (cs : List Char) : Option Nat :=
  if cs.isEmpty then none
  else
    cs.foldl
      (fun acc c =>
        match acc with
        | some v => if c.isDigit then some (v * 10 + (c.toNat - 48)) else none
        | none => none)
      (some 0)

/-- `_tc_to_pts` step 1: `hh, mm, ss, ff = map(int, tc.split(':'))`, which
raises `ValueError` (modelled as `none`) unless the string is four
`:`-separated decimal fields. -/
def tcParse (s : String) : Option (Nat × Nat × Nat × Nat) :=
  match (splitOnCharList ':' s.data).map parseNatStrict with
  | [some a, some b, some c, some d] => some (a, b, c, d)
  | _ => none

/-- `_tc_to_pts` steps 2-4 on parsed fields:
`total_frames = hh*3600*base + mm*60*base + ss*base + ff` and
`pts = (total_frames * 90000 * fps_den) // fps_num` in pure integer
arithmetic. -/
def tcToPtsQuad (tc : Nat × Nat × Nat × Nat) (num den : Nat) : Nat :=
  (tc.1 * 3600 * fpsBase num den + tc.2.1 * 60 * fpsBase num den
    + tc.2.2.1 * fpsBase num den + tc.2.2.2) * 90000 * den / num

/-- `_tc_to_pts`: on a malformed timecode string the `ValueError` handler
logs and returns 0 ("Defaulting to 0"); otherwise integer PTS arithmetic. -/
def tcToPts (tc : String) (num den : Nat) : Nat :=
  match tcParse tc with
  | none => 0
  | some q => tcToPtsQuad q num den

theorem tc_decomp_core (tf b : Nat) :
    tf / (b * 3600) * (b * 3600)
      + tf % (b * 3600) / (b * 60) * (b * 60)
      + tf % (b * 3600) % (b * 60) / b * b
      + tf % (b * 3600) % (b * 60) % b = tf := by
  have h1 := Nat.div_add_mod tf (b * 3600)
  have h2 := Nat.div_add_mod (tf % (b * 3600)) (b * 60)
  have h3 := Nat.div_add_mod (tf % (b * 3600) % (b * 60)) b
  linarith [h1, h2, h3, Nat.mul_comm (b * 3600) (tf / (b * 3600)),
    Nat.mul_comm (b * 60) (tf % (b * 3600) / (b * 60)),
    Nat.mul_comm b (tf % (b * 3600) % (b * 60) / b)]

unseal Rat.add Rat.mul Rat.inv Rat.sub in
/-- C6: `_ms_to_tc` computes `total_frames = round(ms/1000 * fps_num/fps_den)`
and decomposes it into a valid `HH:MM:SS:FF` quadruple over the nominal base
`fps_base = round(fps_num/fps_den)` with `frames_per_hour = fps_base*3600`,
`frames_per_minute = fps_base*60`, `frames_per_second = fps_base` (the digits
recompose exactly to `total_frames` and FF/SS/MM are in range); in particular
`_ms_to_tc(1001.0, 24000, 1001)` returns `"00:00:01:00"`. -/
theorem msToTc_spec (ms : ℚ) (num den : Nat) (hbase : 0 < fpsBase num den) :
    (msToTc ms num den).1 * (fpsBase num den * 3600)
        + (msToTc ms num den).2.1 * (fpsBase num den * 60)
        + (msToTc ms num den).2.2.1 * fpsBase num den
        + (msToTc ms num den).2.2.2 = msToTcFrames ms num den
      ∧ (msToTc ms num den).2.2.2 < fpsBase num den
      ∧ (msToTc ms num den).2.2.1 < 60
      ∧ (msToTc ms num den).2.1 < 60
      ∧ msToTc 1001 24000 1001 = (0, 0, 1, 0)
      ∧ tcFormat (msToTc 1001 24000 1001) = "00:00:01:00" := by
  refine ⟨?_, ?_, ?_, ?_, by decide, by decide⟩
  · simp only [msToTc]
    exact tc_decomp_core _ _
  · simp only [msToTc]
    exact Nat.mod_lt _ hbase
  · simp only [msToTc]
    rw [Nat.div_lt_iff_lt_mul hbase]
    have h := Nat.mod_lt (msToTcFrames ms num den % (fpsBase num den * 3600))
      (show 0 < fpsBase num den * 60 by omega)
    omega
  · simp only [msToTc]
    rw [Nat.div_lt_iff_lt_mul (show 0 < fpsBase num den * 60 by omega)]
    have h := Nat.mod_lt (msToTcFrames ms num den)
      (show 0 < fpsBase num den * 3600 by omega)
    have e : fpsBase num den * 3600 = 60 * (fpsBase num den * 60) := by ring
    omega

unseal Rat.add Rat.mul Rat.inv Rat.sub in
/-- Witness for C6 at `ms = 1001`, fps `24000/1001` (nominal base 24). -/
theorem msToTc_spec_witness :
    0 < fpsBase 24000 1001
      ∧ ((msToTc 1001 24000 1001).1 * (fpsBase 24000 1001 * 3600)
            + (msToTc 1001 24000 1001).2.1 * (fpsBase 24000 1001 * 60)
            + (msToTc 1001 24000 1001).2.2.1 * fpsBase 24000 1001
            + (msToTc 1001 24000 1001).2.2.2 = msToTcFrames 1001 24000 1001
          ∧ (msToTc 1001 24000 1001).2.2.2 < fpsBase 24000 1001
          ∧ (msToTc 1001 24000 1001).2.2.1 < 60
          ∧ (msToTc 1001 24000 1001).2.1 < 60
          ∧ msToTc 1001 24000 1001 = (0, 0, 1, 0)
          ∧ tcFormat (msToTc 1001 24000 1001) = "00:00:01:00") :=
  ⟨by decide, msToTc_spec 1001 24000 1001 (by decide)⟩

theorem round_toNat_bound (q : ℚ) (hq : 0 ≤ q) :
    |(((round q).toNat : ℚ)) - q| ≤ 1 / 2 := by
  have h0 : (0 : ℤ) ≤ round q := by
    rw [round_eq]
    exact Int.floor_nonneg.mpr (by linarith)
  have hc : (((round q).toNat : ℚ)) = ((round q : ℤ) : ℚ) := by
    exact_mod_cast congrArg (fun z : ℤ => (z : ℚ)) (Int.toNat_of_nonneg h0)
  rw [hc, abs_sub_comm]
  exact abs_sub_round q

theorem tcToPtsQuad_msToTc (ms : ℚ) (num den : Nat) :
    tcToPtsQuad (msToTc ms num den) num den
      = msToTcFrames ms num den * 90000 * den / num := by
  have hsum : (msToTc ms num den).1 * 3600 * fpsBase num den
      + (msToTc ms num den).2.1 * 60 * fpsBase num den
      + (msToTc ms num den).2.2.1 * fpsBase num den
      + (msToTc ms num den).2.2.2 = msToTcFrames ms num den := by
    have h := tc_decomp_core (msToTcFrames ms num den) (fpsBase num den)
    simp only [msToTc]
    ring_nf
    ring_nf at h
    omega
  unfold tcToPtsQuad
  rw [hsum]

theorem timecode_roundtrip_core (ms : ℚ) (num den : Nat) (hms : 0 ≤ ms)
    (hnum : 0 < num) (hden : 0 < den) (hnd : num ≤ 45000 * den) :
    |((tcToPtsQuad (msToTc ms num den) num den : ℚ)) / 90 - ms|
      ≤ 1000 * den / num := by
  rw [tcToPtsQuad_msToTc]
  have hN : (0:ℚ) < num := by exact_mod_cast hnum
  have hDe : (0:ℚ) < den := by exact_mod_cast hden
  have hnd' : (num:ℚ) ≤ 45000 * den := by exact_mod_cast hnd
  have hdm := Nat.div_add_mod (msToTcFrames ms num den * 90000 * den) num
  have hml := Nat.mod_lt (msToTcFrames ms num den * 90000 * den) hnum
  have hF1n : num * (msToTcFrames ms num den * 90000 * den / num)
      ≤ msToTcFrames ms num den * 90000 * den := Nat.le.intro hdm
  have hF2n : msToTcFrames ms num den * 90000 * den
      < num * (msToTcFrames ms num den * 90000 * den / num) + num := by
    calc msToTcFrames ms num den * 90000 * den
        = num * (msToTcFrames ms num den * 90000 * den / num)
          + msToTcFrames ms num den * 90000 * den % num := hdm.symm
      _ < num * (msToTcFrames ms num den * 90000 * den / num) + num :=
          Nat.add_lt_add_left hml _
  have hF1 : (num:ℚ) * (msToTcFrames ms num den * 90000 * den / num : ℕ)
      ≤ (msToTcFrames ms num den : ℚ) * 90000 * den := by exact_mod_cast hF1n
  have hF2 : (msToTcFrames ms num den : ℚ) * 90000 * den
      < (num:ℚ) * (msToTcFrames ms num den * 90000 * den / num : ℕ) + num := by
    exact_mod_cast hF2n
  have hr : |((msToTcFrames ms num den : ℕ) : ℚ) - ms / 1000 * ((num:ℚ)/den)| ≤ 1/2 :=
    round_toNat_bound _ (by positivity)
  rw [abs_le] at hr
  obtain ⟨hr1, hr2⟩ := hr
  have hq90000 : ms / 1000 * ((num:ℚ)/den) * (90000 * den) = 90 * (ms * num) := by
    field_simp
    ring
  have hT1 : (msToTcFrames ms num den : ℚ) * (90000 * den)
      ≤ 90 * (ms * num) + 45000 * den := by
    have hmul := mul_le_mul_of_nonneg_right
      (show (msToTcFrames ms num den : ℚ) ≤ ms / 1000 * ((num:ℚ)/den) + 1/2 by linarith)
      (show (0:ℚ) ≤ 90000 * den by positivity)
    calc (msToTcFrames ms num den : ℚ) * (90000 * den)
        ≤ (ms / 1000 * ((num:ℚ)/den) + 1/2) * (90000 * den) := hmul
      _ = ms / 1000 * ((num:ℚ)/den) * (90000 * den) + 45000 * den := by ring
      _ = 90 * (ms * num) + 45000 * den := by rw [hq90000]
  have hT2 : 90 * (ms * num) - 45000 * den
      ≤ (msToTcFrames ms num den : ℚ) * (90000 * den) := by
    have hmul := mul_le_mul_of_nonneg_right
      (show ms / 1000 * ((num:ℚ)/den) - 1/2 ≤ (msToTcFrames ms num den : ℚ) by linarith)
      (show (0:ℚ) ≤ 90000 * den by positivity)
    calc 90 * (ms * num) - 45000 * den
        = ms / 1000 * ((num:ℚ)/den) * (90000 * den) - 45000 * den := by rw [hq90000]
      _ = (ms / 1000 * ((num:ℚ)/den) - 1/2) * (90000 * den) := by ring
      _ ≤ (msToTcFrames ms num den : ℚ) * (90000 * den) := hmul
  have heq : ((msToTcFrames ms num den * 90000 * den / num : ℕ) : ℚ) / 90 - ms
      = (((msToTcFrames ms num den * 90000 * den / num : ℕ) : ℚ) * num
          - 90 * ms * num) / (90 * num) := by
    field_simp
    ring
  have heq2 : 1000 * (den:ℚ) / num = 90000 * den / (90 * num) := by
    rw [div_eq_div_iff (by positivity) (by positivity)]
    ring
  rw [heq, heq2, abs_div, abs_of_pos (show (0:ℚ) < 90 * num by positivity),
    div_le_div_iff_of_pos_right (show (0:ℚ) < 90 * num by positivity)]
  rw [abs_le]
  constructor
  · nlinarith [hF2, hT2, hnd', hDe.le]
  · nlinarith [hF1, hT1, hDe.le]

/-- C5: timecode round-trip.  For every `ms ≥ 0` and every fps in the fixed
table of rational pairs for {23.976, 24, 25, 29.97, 30, 50, 59.94, 60},
converting `ms_to_timecode(ms, fps)` back with `timecode_to_pts` (pure
integer arithmetic `pts = total_frames * 90000 * fps_den // fps_num` over the
same nominal base) and dividing the 90 kHz clock by 90 recovers `ms` to
within one frame duration (`1000 * fps_den / fps_num` milliseconds). -/
theorem timecode_roundtrip (ms : ℚ) (num den : Nat) (hms : 0 ≤ ms)
    (hfps : (num, den) ∈ [(24000, 1001), (24, 1), (25, 1), (30000, 1001),
      (30, 1), (50, 1), (60000, 1001), (60, 1)]) :
    |((tcToPtsQuad (msToTc ms num den) num den : ℚ)) / 90 - ms|
      ≤ 1000 * den / num := by
  have h : 0 < num ∧ 0 < den ∧ num ≤ 45000 * den := by
    fin_cases hfps <;> exact ⟨by norm_num, by norm_num, by norm_num⟩
  exact timecode_roundtrip_core ms num den hms h.1 h.2.1 h.2.2

/-- Witness for C5 at `ms = 1001`, fps `24000/1001`. -/
theorem timecode_roundtrip_witness :
    (0 ≤ (1001:ℚ)
        ∧ ((24000:Nat), (1001:Nat)) ∈ [(24000, 1001), (24, 1), (25, 1),
            (30000, 1001), (30, 1), (50, 1), (60000, 1001), (60, 1)])
      ∧ |((tcToPtsQuad (msToTc 1001 24000 1001) 24000 1001 : ℚ)) / 90 - 1001|
          ≤ 1000 * 1001 / 24000 :=
  ⟨⟨by norm_num, by decide⟩,
    timecode_roundtrip 1001 24000 1001 (by norm_num) (by decide)⟩

/-- C10 counterexample: an event timecode that does not parse as
`HH:MM:SS:FF` does not abort the run; `_tc_to_pts` catches the `ValueError`,
logs, and returns the substituted PTS value 0, so the run continues. -/
theorem tcToPts_malformed_counterexample :
    tcParse "garbage" = none ∧ tcToPts "garbage" 24000 1001 = 0 := by
  refine ⟨?_, ?_⟩ <;> rfl

/-- C10 (amended): a malformed in/out timecode string (one that fails to
parse as `HH:MM:SS:FF`) does not abort the run; `_tc_to_pts` substitutes the
value 0 for the event's PTS and the export continues. -/
theorem tcToPts_malformed_zero (s : String) (num den : Nat)
    (h : tcParse s = none) : tcToPts s num den = 0 := by
  unfold tcToPts
  rw [h]

/-- Witness for C10 (amended) at the literal string `"00:00:xx:00"`. -/
theorem tcToPts_malformed_zero_witness :
    tcParse "00:00:xx:00" = none ∧ tcToPts "00:00:xx:00" 24000 1001 = 0 :=
  ⟨by rfl, tcToPts_malformed_zero "00:00:xx:00" 24000 1001 (by rfl)⟩

/-! ### Corner guard (`BdnComposer._create_composite_image`,
bdn_composer.py lines 200-222) and quantization
(`PgsEncoder._quantize_image`, pgs_encoder.py lines 152-219) -/

/-- One RGBA pixel `(r, g, b, a)`. -/
abbrev RGBA := Nat × Nat × Nat × Nat

/-- The alpha channel of a pixel (`pixel[3]`). -/
def alphaOf (p : RGBA) : Nat := p.2.2.2

/-- The anti-recrop guard color exactly as written in the source
(bdn_composer.py line 210): `guard = (0, 0, 0, 0)`. -/
def guardColor : RGBA := (0, 0, 0, 0)

/-- One corner update: `if pixels[x, y][3] == 0: pixels[x, y] = guard`. -/
def guardCorner (pos : Nat × Nat) (px : Nat × Nat → RGBA) : Nat × Nat → RGBA :=
  if alphaOf (px pos) = 0 then Function.update px pos guardColor else px

/-- The four corner updates of `_create_composite_image` (bdn_composer.py
lines 212-220) on a `w × h` cropped image, in source order: top-left,
top-right, bottom-left, bottom-right. -/
def applyCornerGuard (w h : Nat) (px : Nat × Nat → RGBA) : Nat × Nat → RGBA :=
  guardCorner (w - 1, h - 1)
    (guardCorner (0, h - 1) (guardCorner (w - 1, 0) (guardCorner (0, 0) px)))

/-- C7: the corner-guard code contradicts its own comments ("Guard Color:
Black with 1/255 opacity", "placing nearly-invisible pixels (Alpha=1)"): the
guard value actually written is `(0, 0, 0, 0)`, so after the guard pass a
fully transparent corner still has alpha 0 — no corner is ever forced to a
non-zero alpha.  (A corner that already has non-zero alpha is indeed left
unchanged, as the second conjunct shows.) -/
theorem corner_guard_alpha_stays_zero :
    guardColor = (0, 0, 0, 0)
      ∧ alphaOf (applyCornerGuard 2 2 (fun _ => (5, 5, 5, 0)) (0, 0)) = 0
      ∧ applyCornerGuard 2 2 (fun _ => (5, 5, 5, 7)) (0, 0) = (5, 5, 5, 7) := by
  refine ⟨rfl, by decide, by decide⟩

/-- PIL `Image.getcolors(maxcolors)`: `None` when the image has more than
`maxcolors` distinct colors, else the list of `(count, color)` pairs of the
distinct colors. -/
def getcolors (pixels : List RGBA) (maxcolors : Nat) : Option (List (Nat × RGBA)) :=
  if pixels.dedup.length ≤ maxcolors then
    some (pixels.dedup.map (fun c => (pixels.count c, c)))
  else none

/-- `img.point(lambda p: p & 0xF0)`: posterize every channel to its high
nibble (PIL applies the point function to the alpha band as well). -/
def posterize (pixels : List RGBA) : List RGBA :=
  pixels.map (fun p =>
    (p.1 &&& 0xF0, p.2.1 &&& 0xF0, p.2.2.1 &&& 0xF0, p.2.2.2 &&& 0xF0))

/-- The pixels `_quantize_image` actually indexes (`list(img.getdata())`):
the original image when tier 1 applies, else the posterized image (tiers 2
and 3 both index posterized pixels). -/
def effectivePixels (pixels : List RGBA) : List RGBA :=
  if (getcolors pixels 256).isSome then pixels else posterize pixels

/-- The `(count, color)` list `_quantize_image` settles on: tier 1 (exact
enumeration), tier 2 (posterized) or tier 3 (posterized, sorted by count
descending and truncated to the 255 most frequent).  The final `[]` fallback
is unreachable since a posterized image has at most 16^4 distinct colors. -/
def tierColors (pixels : List RGBA) : List (Nat × RGBA) :=
  match getcolors pixels 256 with
  | some cs => cs
  | none =>
    match getcolors (posterize pixels) 256 with
    | some cs => cs
    | none =>
      match getcolors (posterize pixels) 16777216 with
      | some cs => (List.insertionSort (fun a b => b.1 ≤ a.1) cs).take 255
      | none => []

/-- `palette_rgba`: remove the fully transparent color if present
(`raw_colors.remove((0,0,0,0))` removes the first occurrence; the color list
is duplicate-free), pin it at index 0, and trim to 256 entries. -/
def paletteRGBA (pixels : List RGBA) : List RGBA :=
  (((0, 0, 0, 0) : RGBA)
      :: ((tierColors pixels).map Prod.snd).erase ((0, 0, 0, 0) : RGBA)).take 256

/-- Index of the first occurrence of `p` in `pal` (the value the Python dict
`{c: i for i, c in enumerate(palette_rgba)}` stores for a color of the
duplicate-free `palette_rgba`). -/
def lookupIndex (pal : List RGBA) (p : RGBA) : Nat :=
  match pal with
  | [] => 0
  | q :: rest => if p = q then 0 else lookupIndex rest p + 1

/-- `color_map.get(p, 0)`: the palette index of a color, 0 (transparent)
when the color was dropped. -/
def colorIndex (pixels : List RGBA) (p : RGBA) : Nat :=
  if p ∈ paletteRGBA pixels then lookupIndex (paletteRGBA pixels) p else 0

/-- Python `int()` truncation toward zero on a rational. -/
def ratTrunc (q : ℚ) : ℤ := if 0 ≤ q then ⌊q⌋ else ⌈q⌉

/-- BT.601 broadcast-range conversion of one RGBA palette entry to
`(Y, Cr, Cb, A)`: Y clamped to [16,235], Cb and Cr to [16,240], alpha passed
through unchanged (pgs_encoder.py lines 207-217). -/
def yuvOf (p : RGBA) : Nat × Nat × Nat × Nat :=
  ((max 16 (min 235 (ratTrunc
      (16 + (257/1000 : ℚ) * p.1 + (504/1000) * p.2.1 + (98/1000) * p.2.2.1)))).toNat,
   (max 16 (min 240 (ratTrunc
      (128 + (439/1000 : ℚ) * p.1 - (368/1000) * p.2.1 - (71/1000) * p.2.2.1)))).toNat,
   (max 16 (min 240 (ratTrunc
      (128 - (148/1000 : ℚ) * p.1 - (291/1000) * p.2.1 + (439/1000) * p.2.2.1)))).toNat,
   p.2.2.2)

/-- `_quantize_image`: returns `(palette_yuv, indexed_pixels)`. -/
def quantizeImage (pixels : List RGBA) : List (Nat × Nat × Nat × Nat) × List Nat :=
  ((paletteRGBA pixels).map yuvOf, (effectivePixels pixels).map (colorIndex pixels))

/-- A bitmap with exactly 256 distinct colors, none fully transparent. -/
def pixels256 : List RGBA := (List.range 256).map (fun r => (r, 0, 0, 255))

theorem yuvOf_transparent : yuvOf (0, 0, 0, 0) = (16, 128, 128, 0) := by
  unfold yuvOf ratTrunc
  norm_num
  refine ⟨rfl, rfl⟩

theorem length_erase_of_mem_rgba {l : List RGBA} {a : RGBA} (h : a ∈ l) :
    (l.erase a).length + 1 = l.length := by
  induction l with
  | nil => simp at h
  | cons b t ih =>
    by_cases hba : b = a
    · simp [List.erase_cons, hba]
    · have ht : a ∈ t := by
        rcases List.mem_cons.mp h with rfl | h'
        · exact absurd rfl hba
        · exact h'
      rw [List.erase_cons, if_neg (by simp [hba])]
      simp only [List.length_cons]
      have := ih ht
      omega

theorem lookupIndex_lt_length {pal : List RGBA} {p : RGBA} (h : p ∈ pal) :
    lookupIndex pal p < pal.length := by
  induction pal with
  | nil => simp at h
  | cons q rest ih =>
    unfold lookupIndex
    split
    · simp
    · next hne =>
      have hp : p ∈ rest := by
        rcases List.mem_cons.mp h with rfl | hr
        · exact absurd rfl hne
        · exact hr
      simpa using ih hp

theorem getElem?_lookupIndex {pal : List RGBA} {p : RGBA} (h : p ∈ pal) :
    pal[lookupIndex pal p]? = some p := by
  induction pal with
  | nil => simp at h
  | cons q rest ih =>
    unfold lookupIndex
    split
    · next heq => simp [heq]
    · next hne =>
      have hp : p ∈ rest := by
        rcases List.mem_cons.mp h with rfl | hr
        · exact absurd rfl hne
        · exact hr
      simpa using ih hp

/-- C8: quantizer invariants for every input bitmap: the palette has at most
256 entries; its entry at index 0 is the fully transparent color
`(Y, Cr, Cb, A) = (16, 128, 128, 0)`; every index in the output indexed
bitmap is strictly below the palette length; and every color not retained in
the RGBA palette maps to index 0 (graceful degradation to transparency). -/
theorem quantize_invariants (pixels : List RGBA) :
    (quantizeImage pixels).1.length ≤ 256
      ∧ (quantizeImage pixels).1.head? = some (16, 128, 128, 0)
      ∧ (∀ i ∈ (quantizeImage pixels).2, i < (quantizeImage pixels).1.length)
      ∧ (∀ p : RGBA, p ∉ paletteRGBA pixels → colorIndex pixels p = 0) := by
  have hlen : (paletteRGBA pixels).length ≤ 256 := by
    unfold paletteRGBA
    rw [List.length_take]
    exact Nat.min_le_left _ _
  have hpos : 0 < (paletteRGBA pixels).length := by
    unfold paletteRGBA
    rw [List.length_take]
    simp
  refine ⟨?_, ?_, ?_, ?_⟩
  · simpa [quantizeImage] using hlen
  · have hhead : (paletteRGBA pixels).head? = some (0, 0, 0, 0) := by
      unfold paletteRGBA
      rw [show (256 : Nat) = 255 + 1 from rfl, List.take_succ_cons]
      rfl
    simp only [quantizeImage, List.head?_map, hhead]
    exact congrArg some yuvOf_transparent
  · intro i hi
    simp only [quantizeImage, List.mem_map] at hi
    obtain ⟨p, _, rfl⟩ := hi
    simp only [quantizeImage, List.length_map]
    unfold colorIndex
    split
    · next hmem => exact lookupIndex_lt_length hmem
    · exact hpos
  · intro p hp
    unfold colorIndex
    rw [if_neg hp]

set_option maxRecDepth 10000 in
/-- C9 counterexample: a bitmap with exactly 256 distinct colors, none of
them fully transparent, takes tier 1, but prepending the forced transparent
entry makes 257 palette entries and the trim to 256 drops the last color:
the pixel `(255,0,0,255)` maps to index 0, whose palette entry is the fully
transparent color, not the pixel's original color. -/
theorem tier1_256_colors_counterexample :
    pixels256.dedup.length ≤ 256
      ∧ ((255, 0, 0, 255) : RGBA) ∈ pixels256
      ∧ colorIndex pixels256 (255, 0, 0, 255) = 0
      ∧ (paletteRGBA pixels256)[colorIndex pixels256 (255, 0, 0, 255)]?
          = some ((0, 0, 0, 0) : RGBA) := by decide

/-- C9 (amended): tier-1 quantization is exact for every RGBA bitmap with at
most 256 distinct colors, provided the fully transparent color is among them
or there are at most 255 distinct colors (with 256 distinct colors none of
which is transparent, the trim to 256 entries drops one color, whose pixels
degrade to index 0).  Under that proviso no pixel is posterized and every
pixel's palette index maps back, through the RGBA palette before YCbCr
conversion, to the pixel's original color. -/
theorem tier1_exact (pixels : List RGBA)
    (h256 : pixels.dedup.length ≤ 256)
    (hsafe : ((0, 0, 0, 0) : RGBA) ∈ pixels ∨ pixels.dedup.length ≤ 255) :
    effectivePixels pixels = pixels
      ∧ ∀ p ∈ pixels, (paletteRGBA pixels)[colorIndex pixels p]? = some p := by
  have hgc : getcolors pixels 256
      = some (pixels.dedup.map (fun c => (pixels.count c, c))) := by
    unfold getcolors
    rw [if_pos h256]
  have heff : effectivePixels pixels = pixels := by
    unfold effectivePixels
    rw [hgc]
    rfl
  have htier : tierColors pixels
      = pixels.dedup.map (fun c => (pixels.count c, c)) := by
    unfold tierColors
    rw [hgc]
  have hmapsnd : (tierColors pixels).map Prod.snd = pixels.dedup := by
    rw [htier, List.map_map]
    have hid : (Prod.snd ∘ fun c : RGBA => (pixels.count c, c)) = id := by
      funext c
      rfl
    rw [hid, List.map_id]
  have hpal0 : paletteRGBA pixels
      = ((0, 0, 0, 0) : RGBA) :: pixels.dedup.erase ((0, 0, 0, 0) : RGBA) := by
    unfold paletteRGBA
    rw [hmapsnd]
    apply List.take_of_length_le
    rw [List.length_cons]
    rcases hsafe with hmem | hle
    · have hd : ((0, 0, 0, 0) : RGBA) ∈ pixels.dedup := List.mem_dedup.mpr hmem
      have := length_erase_of_mem_rgba hd
      omega
    · have hsub : (pixels.dedup.erase ((0, 0, 0, 0) : RGBA)).length
          ≤ pixels.dedup.length :=
        List.Sublist.length_le (List.erase_sublist _ _)
      omega
  refine ⟨heff, ?_⟩
  intro p hp
  have hpd : p ∈ pixels.dedup := List.mem_dedup.mpr hp
  have hppal : p ∈ paletteRGBA pixels := by
    rw [hpal0]
    by_cases hp0 : p = ((0, 0, 0, 0) : RGBA)
    · subst hp0
      exact List.mem_cons_self _ _
    · exact List.mem_cons_of_mem _ ((List.mem_erase_of_ne hp0).mpr hpd)
  unfold colorIndex
  rw [if_pos hppal]
  exact getElem?_lookupIndex hppal

/-- Witness for C9 (amended) at a two-pixel bitmap. -/
theorem tier1_exact_witness :
    (([((1 : Nat), (2 : Nat), (3 : Nat), (255 : Nat)),
        ((0 : Nat), (0 : Nat), (0 : Nat), (0 : Nat))] : List RGBA).dedup.length ≤ 256
        ∧ (((0, 0, 0, 0) : RGBA)
              ∈ ([(1, 2, 3, 255), (0, 0, 0, 0)] : List RGBA)
            ∨ ([(1, 2, 3, 255), (0, 0, 0, 0)] : List RGBA).dedup.length ≤ 255))
      ∧ (effectivePixels ([(1, 2, 3, 255), (0, 0, 0, 0)] : List RGBA)
            = ([(1, 2, 3, 255), (0, 0, 0, 0)] : List RGBA)
          ∧ ∀ p ∈ ([(1, 2, 3, 255), (0, 0, 0, 0)] : List RGBA),
              (paletteRGBA ([(1, 2, 3, 255), (0, 0, 0, 0)] : List RGBA))[
                colorIndex ([(1, 2, 3, 255), (0, 0, 0, 0)] : List RGBA) p]? = some p) :=
  ⟨⟨by decide, Or.inl (by decide)⟩,
    tier1_exact ([(1, 2, 3, 255), (0, 0, 0, 0)] : List RGBA) (by decide)
      (Or.inl (by decide))⟩
